import Mathlib

/-!
# Verification of the `ringbuffer2` lock-free ring buffer

A shallow embedding of the Go package `ringbuffer2` (files `buffer.go`,
`sequence.go`, `lockfree.go`) and proofs about its operations.

Modelling conventions:

* Bytes are `Nat`; Go byte slices are `List Nat`.
* The two `sequence` structs hold monotonically increasing non-negative
  `int64` cursors; we model the cursors (`pseq.cursor`, `cseq.cursor`) and
  the producer `gate` field as `Nat` fields of the buffer state.  The
  padding fields `p2`…`p7` and the atomicity of `get`/`set` have no
  sequential meaning and are dropped.
* Quantities that Go computes in possibly negative `int64` arithmetic
  (`wrap = next - size`, `Len`, the counts passed to `Peek`/`Commit`)
  are modelled as `Int` with explicit casts.
* Blocking loops are given "frozen counterparty" semantics: an operation
  either completes without waiting, observes `done` and returns
  end-of-stream, or — when the exit condition cannot be satisfied while the
  other side does not move — is reported as `spins`.
* The Go builtin `copy(dst[o:], src)` is `goCopy dst src o`.
-/

/-- Error values used by the package: `bufio.ErrNegativeCount`,
`bufio.ErrBufferFull`, the two `fmt.Errorf` constructor errors (carrying the
suggested size), `ErrBufferInsufficientData` and `io.EOF`. -/
inductive Err where
  | negativeCount
  | bufferFull
  | notPowerOfTwo (suggest : Int)
  | tooSmall (suggest : Int)
  | insufficientData
  | eof
deriving DecidableEq, Repr

/-- The Go builtin `copy(dst[start:], src)`: copies
`min (dst.length - start) src.length` bytes of `src` into `dst` at offset
`start`, returning the updated destination and the count copied. -/
def goCopy (dst src : List Nat) (start : Nat) : List Nat × Nat :=
  let l := min (dst.length - start) src.length
  (dst.take start ++ src.take l ++ dst.drop (start + l), l)

/-- The loop body of `ringCopy` (buffer.go).  `fuel` bounds the number of
iterations; `none` means the fuel ran out, which corresponds to the Go loop
not terminating (possible only outside the documented preconditions). -/
def ringCopyAux : Nat → List Nat → List Nat → Nat → Nat → Nat → Option (List Nat × Nat)
  | 0, _, _, _, _, _ => none
  | fuel + 1, dst, src, i, start, n =>
    if n = 0 then some (dst, i)
    else
      let r := goCopy dst (src.drop i) start
      let l := r.2
      let n' := n - l
      ringCopyAux fuel r.1 src (i + l) (if n' > 0 then 0 else start) n'

/-- Model of `ringCopy(dst, src, start)` from buffer.go: copies `src` into `dst`
beginning at `start`, wrapping to `dst[0]` when the tail is exhausted, and
returns the updated `dst` with the number of bytes copied. -/
def ringCopy (dst src : List Nat) (start : Nat) : Option (List Nat × Nat) :=
  ringCopyAux (src.length + 2) dst src 0 start src.length

/-- Constants from buffer.go. -/
def defaultReadBlockSize : Nat := 1024

/-- Constants from buffer.go. -/
def defaultWriteBlockSize : Nat := 2048

/-- Constants from buffer.go. -/
def defaultBufferSize : Nat := 1024 * 1024

/-- The state of a `LockFreeBuffer` (lockfree.go).  `pseq`/`cseq` are the
cursors of the two `sequence` structs, and `gate` is `pseq.gate`.  The `id`
field (assigned from a process-wide counter) is omitted: it has no effect
on any operation. -/
structure LockFreeBuffer where
  buf : List Nat
  tmp : List Nat
  size : Nat
  mask : Nat
  done : Bool
  pseq : Nat
  gate : Nat
  cseq : Nat
  cwait : Nat
  pwait : Nat
deriving DecidableEq, Repr

/-- Modelled from the spec: `bithacks.PowerOfTwo64` (the library is not part
of this repository) — "size must be a power of two", tested with the
standard bit trick `v > 0 && v & (v-1) == 0`. -/
def powerOfTwo64 (v : Int) : Bool :=
  0 < v && v.toNat &&& (v.toNat - 1) == 0

/-- Modelled from the spec: `bithacks.RoundUpPowerOfTwo64` (the library is
not part of this repository) — the error message suggests the next power of
two, i.e. the least power of two that is at least `v`. -/
def roundUpPowerOfTwo64 (v : Int) : Int :=
  (2 ^ Nat.clog 2 v.toNat : Nat)

/-- Model of `NewLockFreeBuffer(size)` (lockfree.go): validates the size and builds
the zeroed buffer. -/
def newLockFreeBuffer (size : Int) : Except Err LockFreeBuffer :=
  if size < 0 then .error .negativeCount
  else
    let size := if size = 0 then (defaultBufferSize : Int) else size
    if ¬ powerOfTwo64 size then .error (.notPowerOfTwo (roundUpPowerOfTwo64 size))
    else if size < 2 * (defaultReadBlockSize : Int) then
      .error (.tooSmall (2 * (defaultReadBlockSize : Int)))
    else
      .ok { buf := List.replicate size.toNat 0
            tmp := []
            size := size.toNat
            mask := size.toNat - 1
            done := false
            pseq := 0
            gate := 0
            cseq := 0
            cwait := 0
            pwait := 0 }

namespace LockFreeBuffer

/-- Model of `Close()` (lockfree.go): stores 1 into `done` and returns `nil`. -/
def close (st : LockFreeBuffer) : Option Err × LockFreeBuffer :=
  (none, { st with done := true })

/-- Model of `Len()` (lockfree.go): `int(ppos - cpos)`. -/
def len (st : LockFreeBuffer) : Int :=
  (st.pseq : Int) - (st.cseq : Int)

/-- Outcome of `waitForWriteSpace` under frozen-counterparty semantics.
`ok start cnt st` carries the (possibly gate-updated) state; `eof st`
carries the state with `pwait` incremented; `spins` means the wait loop can
never exit while the consumer does not move and `done` stays 0. -/
inductive WaitResult where
  | ok (start cnt : Nat) (st : LockFreeBuffer)
  | eof (st : LockFreeBuffer)
  | spins
deriving DecidableEq, Repr

/-- Model of `waitForWriteSpace(n)` (lockfree.go).  With `ppos = pseq.get()`,
`next = ppos + n`, `gate = pseq.gate`, `wrap = next - size`: waits iff
`wrap > gate || gate > ppos`; the spin exits only once `cseq ≥ wrap`
(here: immediately or never), then `gate` is refreshed to the observed
`cseq`; returns `(ppos, n, nil)`. -/
def waitForWriteSpace (st : LockFreeBuffer) (n : Nat) : WaitResult :=
  let ppos := st.pseq
  let next : Int := (ppos : Int) + (n : Int)
  let gate : Int := (st.gate : Int)
  let wrap : Int := next - (st.size : Int)
  if wrap > gate ∨ gate > (ppos : Int) then
    let st' := { st with pwait := st.pwait + 1 }
    if wrap ≤ (st'.cseq : Int) then
      .ok ppos n { st' with gate := st'.cseq }
    else if st'.done then .eof st'
    else .spins
  else
    .ok ppos n st

/-- Outcome of `Write`. `err e st` is the Go return `(0, e)`. -/
inductive WriteResult where
  | ok (n : Nat) (st : LockFreeBuffer)
  | err (e : Err) (st : LockFreeBuffer)
  | spins
deriving DecidableEq, Repr

/-- Model of `Write(p)` (lockfree.go): waits for space, ring-copies `p` into `buf`
at `start & mask`, then sets `pseq = start + len(p)`. -/
def write (st : LockFreeBuffer) (p : List Nat) : WriteResult :=
  match waitForWriteSpace st p.length with
  | .eof st' => .err .eof st'
  | .spins => .spins
  | .ok start _cnt st' =>
    match ringCopy st'.buf p (start &&& st'.mask) with
    | none => .spins
    | some (buf', total) =>
      .ok total { st' with buf := buf', pseq := start + p.length }

/-- Outcome of `Read`. `ok n p st` returns the count, the destination
slice after the copy, and the new state; `eofR st` is the Go return
`(0, io.EOF)`. -/
inductive ReadResult where
  | ok (n : Nat) (p : List Nat) (st : LockFreeBuffer)
  | eofR (st : LockFreeBuffer)
  | spins
deriving DecidableEq, Repr

/-- Model of `Read(p)` (lockfree.go) under frozen-counterparty semantics: with
`cpos = cseq.get()`, `ppos = pseq.get()`, `cindex = cpos & mask`, either
(1) `cpos + len(p) < ppos`: copy from `buf[cindex:]`, or (2) `cpos < ppos`:
copy the `b = ppos - cpos` available bytes (clipped to the physical end),
advancing `cseq` by the copied count; otherwise wait (EOF on `done`). -/
def read (st : LockFreeBuffer) (p : List Nat) : ReadResult :=
  let pl := p.length
  let cpos := st.cseq
  let ppos := st.pseq
  let cindex := cpos &&& st.mask
  if cpos + pl < ppos then
    let r := goCopy p (st.buf.drop cindex) 0
    .ok r.2 r.1 { st with cseq := cpos + r.2 }
  else if cpos < ppos then
    let b := ppos - cpos
    let r := if cindex + b < st.size
      then goCopy p ((st.buf.drop cindex).take b) 0
      else goCopy p (st.buf.drop cindex) 0
    .ok r.2 r.1 { st with cseq := cpos + r.2 }
  else
    if st.done then .eofR { st with cwait := st.cwait + 1 } else .spins

/-- Outcome of `Peek`. `ok view e st` pairs the returned slice with the
(possibly `insufficientData`) error and the state (only `tmp` may change);
`errP e` is the Go return `(nil, e)`. -/
inductive PeekResult where
  | ok (view : List Nat) (e : Option Err) (st : LockFreeBuffer)
  | errP (e : Err)
  | spins
deriving DecidableEq, Repr

/-- Model of `Peek(n)` (lockfree.go): validates `n`, waits for at least one byte,
sets `m = min n (ppos - cpos)` (flagging `insufficientData` when short),
and returns a direct view `buf[cindex : cindex+m]`, or, when the region
wraps, the two halves appended into `tmp`. -/
def peek (st : LockFreeBuffer) (n : Int) : PeekResult :=
  if (st.size : Int) < n then .errP .bufferFull
  else if n < 0 then .errP .negativeCount
  else
    let cpos := st.cseq
    let ppos := st.pseq
    if ppos ≤ cpos then
      if st.done then .errP .eof else .spins
    else
      let avail : Int := (ppos : Int) - (cpos : Int)
      let m : Int := if n ≤ avail then n else avail
      let e : Option Err := if n ≤ avail then none else some .insufficientData
      if (cpos : Int) + m ≤ (ppos : Int) then
        let mN := m.toNat
        let cindex := cpos &&& st.mask
        if st.size < cindex + mN then
          let l := (st.buf.drop cindex).length
          let tmp' := st.buf.drop cindex ++ st.buf.take (mN - l)
          .ok tmp' e { st with tmp := tmp' }
        else
          .ok ((st.buf.drop cindex).take mN) e st
      else
        .errP .insufficientData

/-- Model of `Commit(n)` (lockfree.go): validates `n`; if `cpos + n ≤ ppos` advances
`cseq` by `n` and returns `(n, nil)`; otherwise returns
`(0, insufficientData)` without moving. -/
def commit (st : LockFreeBuffer) (n : Int) : (Nat × Option Err) × LockFreeBuffer :=
  if (st.size : Int) < n then ((0, some .bufferFull), st)
  else if n < 0 then ((0, some .negativeCount), st)
  else
    if (st.cseq : Int) + n ≤ (st.pseq : Int) then
      ((n.toNat, none), { st with cseq := st.cseq + n.toNat })
    else
      ((0, some .insufficientData), st)

/-- One response of the external `io.Reader` driving `ReadFrom`: the bytes
it would deliver (clipped to the slice it is handed) and its error value. -/
structure ReadResp where
  data : List Nat
  err : Option Err
deriving DecidableEq, Repr

/-- The body of one `ReadFrom` iteration after `waitForWriteSpace`
succeeded (lockfree.go): `pstart = start & mask`,
`pend = min (pstart + cnt) len(buf)`; the reader fills
`buf[pstart:pend]` with `n` bytes and, if `n > 0`, `pseq` becomes
`start + n`.  Returns the count `n` and the new state. -/
def readFromFill (st : LockFreeBuffer) (start cnt : Nat) (resp : ReadResp) :
    Nat × LockFreeBuffer :=
  let pstart := start &&& st.mask
  let pend := min (pstart + cnt) st.buf.length
  let n := min resp.data.length (pend - pstart)
  let buf' := (goCopy st.buf (resp.data.take n) pstart).1
  if 0 < n then
    (n, { st with buf := buf', pseq := start + n })
  else
    (n, { st with buf := buf' })

/-- Outcome of `ReadFrom`.  `ret n e st` is the Go return `(n, e)`;
`outOfReader` marks the model artifact of the finite response list being
exhausted with the loop still running. -/
inductive RFResult where
  | ret (n : Int) (e : Err) (st : LockFreeBuffer)
  | spins
  | outOfReader
deriving DecidableEq, Repr

/-- The `ReadFrom` loop (lockfree.go), one reader response per iteration:
`waitForWriteSpace(defaultReadBlockSize)`; on its error the function
returns `(0, err)`; otherwise it fills from the reader, accumulates
`total`, and returns `(total, err)` on a reader error. -/
def readFromLoop : List ReadResp → LockFreeBuffer → Int → RFResult
  | resps, st, total =>
    match waitForWriteSpace st defaultReadBlockSize with
    | .spins => .spins
    | .eof st1 => .ret 0 .eof st1
    | .ok start cnt st1 =>
      match resps with
      | [] => .outOfReader
      | resp :: rest =>
        let r := readFromFill st1 start cnt resp
        let total' := total + (r.1 : Int)
        match resp.err with
        | some e => .ret total' e r.2
        | none => readFromLoop rest r.2 total'

/-- Model of `ReadFrom(r)` (lockfree.go), with the reader behavior given as the
list of its successive responses. -/
def readFrom (st : LockFreeBuffer) (resps : List ReadResp) : RFResult :=
  readFromLoop resps st 0

end LockFreeBuffer

/-! ## Helper lemmas about `goCopy` and `ringCopy` -/

theorem goCopy_snd (dst src : List Nat) (start : Nat) :
    (goCopy dst src start).2 = min (dst.length - start) src.length := rfl

theorem goCopy_fst (dst src : List Nat) (start : Nat) :
    (goCopy dst src start).1 =
      dst.take start ++ src.take (min (dst.length - start) src.length) ++
        dst.drop (start + min (dst.length - start) src.length) := rfl

theorem goCopy_length (dst src : List Nat) (start : Nat) (h : start ≤ dst.length) :
    (goCopy dst src start).1.length = dst.length := by
  simp only [goCopy, List.length_append, List.length_take, List.length_drop]
  omega

theorem ringCopyAux_done (fuel : Nat) (dst src : List Nat) (i start : Nat)
    (h : 0 < fuel) : ringCopyAux fuel dst src i start 0 = some (dst, i) := by
  obtain ⟨t, rfl⟩ := Nat.exists_eq_succ_of_ne_zero (Nat.pos_iff_ne_zero.mp h)
  rw [ringCopyAux, if_pos rfl]

theorem ringCopyAux_step (fuel : Nat) (dst src : List Nat) (i start n : Nat)
    (hn : n ≠ 0) :
    ringCopyAux (fuel + 1) dst src i start n =
      ringCopyAux fuel (goCopy dst (src.drop i) start).1 src
        (i + (goCopy dst (src.drop i) start).2)
        (if n - (goCopy dst (src.drop i) start).2 > 0 then 0 else start)
        (n - (goCopy dst (src.drop i) start).2) := by
  rw [ringCopyAux, if_neg hn]

theorem ringCopy_char (dst src : List Nat) (start : Nat)
    (h1 : src.length ≤ dst.length) (h2 : start ≤ dst.length) :
    ∃ out, ringCopy dst src start = some (out, src.length) ∧
      out.length = dst.length ∧
      ∀ k, k < src.length → out[(start + k) % dst.length]? = src[k]? := by
  rcases Nat.eq_zero_or_pos src.length with hs | hs
  · refine ⟨dst, ?_, rfl, ?_⟩
    · simp [ringCopy, hs, ringCopyAux]
    · intro k hk; omega
  · by_cases hA : start + src.length ≤ dst.length
    · -- single contiguous copy
      have hg1 : goCopy dst (src.drop 0) start =
          (dst.take start ++ src ++ dst.drop (start + src.length), src.length) := by
        simp only [goCopy, List.drop_zero]
        rw [Nat.min_eq_right (by omega), List.take_length]
      refine ⟨dst.take start ++ src ++ dst.drop (start + src.length), ?_, ?_, ?_⟩
      · show ringCopyAux (src.length + 2) dst src 0 start src.length = _
        rw [ringCopyAux_step _ _ _ _ _ _ (by omega), hg1]
        simp only [Nat.sub_self, gt_iff_lt, Nat.lt_irrefl, if_false, Nat.zero_add]
        exact ringCopyAux_done _ _ _ _ _ (by omega)
      · simp only [List.length_append, List.length_take, List.length_drop]
        omega
      · intro k hk
        have hmod : (start + k) % dst.length = start + k := Nat.mod_eq_of_lt (by omega)
        rw [hmod, List.append_assoc,
          List.getElem?_append_right (by simp only [List.length_take]; omega),
          List.length_take, Nat.min_eq_left h2,
          List.getElem?_append_left (by omega)]
        congr 1
        omega
    · -- the copy wraps: two iterations
      set l1 := dst.length - start with hl1
      have hl1s : l1 < src.length := by omega
      set dst1 := dst.take start ++ src.take l1 ++ ([] : List Nat) with hdst1
      have hdst1len : dst1.length = dst.length := by
        simp only [hdst1, List.length_append, List.length_take, List.length_nil]
        omega
      have hrest : (src.drop l1).length = src.length - l1 := by
        simp only [List.length_drop]
      have hg1 : goCopy dst (src.drop 0) start = (dst1, l1) := by
        simp only [goCopy, List.drop_zero, hdst1]
        rw [Nat.min_eq_left (by omega), List.drop_eq_nil_of_le (by omega), ← hl1]
      have hg2 : goCopy dst1 (src.drop l1) 0 =
          (src.drop l1 ++ dst1.drop (src.length - l1), src.length - l1) := by
        simp only [goCopy, Nat.sub_zero, hdst1len, List.take_zero, List.nil_append,
          Nat.zero_add, hrest]
        rw [Nat.min_eq_right (by omega), ← hrest, List.take_length]
      refine ⟨src.drop l1 ++ dst1.drop (src.length - l1), ?_, ?_, ?_⟩
      · show ringCopyAux (src.length + 2) dst src 0 start src.length = _
        rw [ringCopyAux_step _ _ _ _ _ _ (by omega), hg1]
        simp only [Nat.zero_add]
        rw [if_pos (by omega)]
        rw [ringCopyAux_step _ _ _ _ _ _ (by omega), hg2]
        simp only [Nat.sub_self, gt_iff_lt, Nat.lt_irrefl, if_false]
        rw [ringCopyAux_done _ _ _ _ _ (by omega)]
        congr 2
        omega
      · simp only [List.length_append, List.length_drop, hdst1len]
        omega
      · intro k hk
        by_cases hkl : k < l1
        · have hmod : (start + k) % dst.length = start + k := Nat.mod_eq_of_lt (by omega)
          rw [hmod,
            List.getElem?_append_right (by simp only [List.length_drop]; omega),
            List.length_drop, List.getElem?_drop, hdst1]
          have harith : src.length - l1 + (start + k - (src.length - l1)) = start + k := by
            omega
          rw [harith, List.append_assoc,
            List.getElem?_append_right (by simp only [List.length_take]; omega),
            List.length_take, Nat.min_eq_left h2,
            List.getElem?_append_left (by simp only [List.length_take]; omega),
            List.getElem?_take_of_lt (by omega)]
          congr 1
          omega
        · have hmod : (start + k) % dst.length = k - l1 := by
            have h2d : start + k - dst.length = k - l1 := by omega
            rw [Nat.mod_eq_sub_mod (by omega), h2d,
              Nat.mod_eq_of_lt (by omega)]
          rw [hmod, List.getElem?_append_left (by simp only [List.length_drop]; omega),
            List.getElem?_drop]
          congr 1
          omega

/-! ## Inversion lemmas for the operations -/

theorem wait_ok_inv (st : LockFreeBuffer) (n start cnt : Nat) (st' : LockFreeBuffer)
    (h : st.waitForWriteSpace n = .ok start cnt st') :
    start = st.pseq ∧ cnt = n ∧
    st'.buf = st.buf ∧ st'.tmp = st.tmp ∧ st'.size = st.size ∧ st'.mask = st.mask ∧
    st'.done = st.done ∧ st'.pseq = st.pseq ∧ st'.cseq = st.cseq ∧
    (st.gate ≤ st.cseq →
      (st.pseq : Int) + (n : Int) - (st.size : Int) ≤ (st.cseq : Int) ∧
        st'.gate ≤ st.cseq) := by
  simp only [LockFreeBuffer.waitForWriteSpace] at h
  split at h
  · rename_i hcond
    split at h
    · rename_i hle
      rw [LockFreeBuffer.WaitResult.ok.injEq] at h
      obtain ⟨h1, h2, h3⟩ := h
      subst h1; subst h2; subst h3
      refine ⟨rfl, rfl, rfl, rfl, rfl, rfl, rfl, rfl, rfl, ?_⟩
      intro _
      exact ⟨by exact_mod_cast hle, le_refl _⟩
    · split at h <;> simp at h
  · rename_i hcond
    rw [LockFreeBuffer.WaitResult.ok.injEq] at h
    obtain ⟨h1, h2, h3⟩ := h
    subst h1; subst h2; subst h3
    refine ⟨rfl, rfl, rfl, rfl, rfl, rfl, rfl, rfl, rfl, ?_⟩
    intro hg
    push_neg at hcond
    exact ⟨le_trans hcond.1 (by exact_mod_cast hg), hg⟩

theorem wait_eof_inv (st : LockFreeBuffer) (n : Nat) (st' : LockFreeBuffer)
    (h : st.waitForWriteSpace n = .eof st') :
    st' = { st with pwait := st.pwait + 1 } := by
  simp only [LockFreeBuffer.waitForWriteSpace] at h
  split at h
  · split at h
    · simp at h
    · split at h
      · rw [LockFreeBuffer.WaitResult.eof.injEq] at h
        exact h.symm
      · simp at h
  · simp at h

theorem read_ok_inv (st : LockFreeBuffer) (p q : List Nat) (n : Nat)
    (st' : LockFreeBuffer) (hbuf : st.buf.length = st.size)
    (h : st.read p = .ok n q st') :
    st'.buf = st.buf ∧ st'.tmp = st.tmp ∧ st'.size = st.size ∧ st'.mask = st.mask ∧
    st'.done = st.done ∧ st'.pseq = st.pseq ∧ st'.gate = st.gate ∧
    st'.cwait = st.cwait ∧ st'.cseq = st.cseq + n ∧ st.cseq + n ≤ st.pseq := by
  simp only [LockFreeBuffer.read] at h
  split at h
  · rename_i hlt
    rw [LockFreeBuffer.ReadResult.ok.injEq] at h
    obtain ⟨h1, h2, h3⟩ := h
    subst h1; subst h3
    have hle : (goCopy p (st.buf.drop (st.cseq &&& st.mask)) 0).2 ≤ p.length := by
      rw [goCopy_snd]; omega
    exact ⟨rfl, rfl, rfl, rfl, rfl, rfl, rfl, rfl, rfl, by omega⟩
  · split at h
    · rename_i hnlt hlt
      split at h
      · rename_i hclip
        rw [LockFreeBuffer.ReadResult.ok.injEq] at h
        obtain ⟨h1, h2, h3⟩ := h
        subst h1; subst h3
        have hle : (goCopy p ((st.buf.drop (st.cseq &&& st.mask)).take
            (st.pseq - st.cseq)) 0).2 ≤ st.pseq - st.cseq := by
          rw [goCopy_snd]
          simp only [List.length_take, List.length_drop]
          omega
        exact ⟨rfl, rfl, rfl, rfl, rfl, rfl, rfl, rfl, rfl, by omega⟩
      · rename_i hclip
        rw [LockFreeBuffer.ReadResult.ok.injEq] at h
        obtain ⟨h1, h2, h3⟩ := h
        subst h1; subst h3
        have hle : (goCopy p (st.buf.drop (st.cseq &&& st.mask)) 0).2 ≤
            st.pseq - st.cseq := by
          rw [goCopy_snd]
          simp only [List.length_drop]
          omega
        exact ⟨rfl, rfl, rfl, rfl, rfl, rfl, rfl, rfl, rfl, by omega⟩
    · split at h <;> simp at h

theorem read_eof_inv (st : LockFreeBuffer) (p : List Nat) (st' : LockFreeBuffer)
    (h : st.read p = .eofR st') :
    st' = { st with cwait := st.cwait + 1 } := by
  simp only [LockFreeBuffer.read] at h
  split at h
  · simp at h
  · split at h
    · simp at h
    · split at h
      · rw [LockFreeBuffer.ReadResult.eofR.injEq] at h
        exact h.symm
      · simp at h

theorem peek_ok_inv (st : LockFreeBuffer) (n : Int) (v : List Nat) (e : Option Err)
    (st' : LockFreeBuffer) (h : st.peek n = .ok v e st') :
    st'.buf = st.buf ∧ st'.size = st.size ∧ st'.mask = st.mask ∧
    st'.done = st.done ∧ st'.pseq = st.pseq ∧ st'.gate = st.gate ∧
    st'.cseq = st.cseq ∧ st'.cwait = st.cwait ∧ st'.pwait = st.pwait := by
  simp only [LockFreeBuffer.peek] at h
  repeat' split at h
  all_goals
    first
      | (rw [LockFreeBuffer.PeekResult.ok.injEq] at h
         obtain ⟨h1, h2, h3⟩ := h
         subst h3
         exact ⟨rfl, rfl, rfl, rfl, rfl, rfl, rfl, rfl, rfl⟩)
      | simp at h

theorem commit_inv (st : LockFreeBuffer) (n : Int) :
    (st.commit n).2 = st ∨
      ((st.commit n).2 = { st with cseq := st.cseq + n.toNat } ∧ 0 ≤ n ∧
        (st.cseq : Int) + n ≤ (st.pseq : Int)) := by
  unfold LockFreeBuffer.commit
  split
  · exact Or.inl rfl
  · split
    · exact Or.inl rfl
    · split
      · rename_i hsize hneg hle
        exact Or.inr ⟨rfl, by omega, hle⟩
      · exact Or.inl rfl

/-! ## State-machine layer: invariants and reachability -/

/-- Structural well-formedness established by the constructor: positive
size, `mask = size - 1`, and a backing array of exactly `size` bytes. -/
def WFBuf (st : LockFreeBuffer) : Prop :=
  0 < st.size ∧ st.mask = st.size - 1 ∧ st.buf.length = st.size

/-- The sequence invariant of the spec: `cseq ≤ pseq ≤ cseq + size`. -/
def SeqInv (st : LockFreeBuffer) : Prop :=
  st.cseq ≤ st.pseq ∧ st.pseq ≤ st.cseq + st.size

/-- The cached gate of the producer never exceeds the real consumer position. -/
def GateInv (st : LockFreeBuffer) : Prop :=
  st.gate ≤ st.cseq

/-- The inductive invariant of the buffer. -/
def BufInv (st : LockFreeBuffer) : Prop :=
  WFBuf st ∧ GateInv st ∧ SeqInv st

theorem write_ok_inv (st : LockFreeBuffer) (p : List Nat) (n : Nat)
    (st' : LockFreeBuffer) (hwf : WFBuf st) (hg : st.gate ≤ st.cseq)
    (hcp : st.cseq ≤ st.pseq) (h : st.write p = .ok n st') :
    p.length ≤ st.size ∧ n = p.length ∧
    st'.pseq = st.pseq + p.length ∧ st'.cseq = st.cseq ∧ st'.size = st.size ∧
    st'.mask = st.mask ∧ st'.done = st.done ∧ st'.tmp = st.tmp ∧
    st'.buf.length = st.size ∧ st'.gate ≤ st'.cseq ∧
    st'.pseq ≤ st'.cseq + st'.size := by
  obtain ⟨hsz, hmask, hbuf⟩ := hwf
  simp only [LockFreeBuffer.write] at h
  split at h
  · simp at h
  · simp at h
  · rename_i start cnt st1 heq
    obtain ⟨hstart, hcnt, hb1, ht1, hs1, hm1, hd1, hp1, hc1, hgate⟩ :=
      wait_ok_inv st p.length start cnt st1 heq
    obtain ⟨hwrap, hg1⟩ := hgate hg
    have hplen : p.length ≤ st.size := by
      have := hcp
      omega
    have hch := ringCopy_char st1.buf p (start &&& st1.mask)
      (by rw [hb1, hbuf]; exact hplen)
      (by
        calc start &&& st1.mask ≤ st1.mask := Nat.and_le_right
        _ ≤ st1.buf.length := by rw [hm1, hb1, hbuf, hmask]; omega)
    obtain ⟨out, hout, houtlen, _⟩ := hch
    rw [hout] at h
    split at h
    · simp at h
    · rename_i buf' total heq2
      rw [Option.some.injEq, Prod.mk.injEq] at heq2
      obtain ⟨hbeq, hteq⟩ := heq2
      rw [LockFreeBuffer.WriteResult.ok.injEq] at h
      obtain ⟨hn, hst⟩ := h
      subst hst
      refine ⟨hplen, by omega, by simp [hstart, hp1], by simp [hc1],
        by simp [hs1], by simp [hm1], by simp [hd1], by simp [ht1],
        by simp [← hbeq, houtlen, hb1, hbuf], ?_, ?_⟩
      · show st1.gate ≤ st1.cseq
        rw [hc1]
        exact hg1
      · show start + p.length ≤ st1.cseq + st1.size
        rw [hc1, hs1]
        omega

theorem readFromFill_inv (st : LockFreeBuffer) (start cnt : Nat) (resp : LockFreeBuffer.ReadResp)
    (hszpos : 0 < st.size) (hmask : st.mask = st.size - 1)
    (hbuf : st.buf.length = st.size) :
    (st.readFromFill start cnt resp).1 ≤ cnt ∧
    (st.readFromFill start cnt resp).2.buf.length = st.size ∧
    (st.readFromFill start cnt resp).2.tmp = st.tmp ∧
    (st.readFromFill start cnt resp).2.size = st.size ∧
    (st.readFromFill start cnt resp).2.mask = st.mask ∧
    (st.readFromFill start cnt resp).2.done = st.done ∧
    (st.readFromFill start cnt resp).2.cseq = st.cseq ∧
    (st.readFromFill start cnt resp).2.gate = st.gate ∧
    ((st.readFromFill start cnt resp).2.pseq = start + (st.readFromFill start cnt resp).1 ∨
      (st.readFromFill start cnt resp).2.pseq = st.pseq) := by
  have hstart : start &&& st.mask ≤ st.buf.length := by
    calc start &&& st.mask ≤ st.mask := Nat.and_le_right
    _ ≤ st.buf.length := by omega
  simp only [LockFreeBuffer.readFromFill]
  split
  · rename_i hpos
    refine ⟨by dsimp only; omega, ?_, rfl, rfl, rfl, rfl, rfl, rfl, Or.inl rfl⟩
    dsimp only
    rw [goCopy_length _ _ _ hstart]
    exact hbuf
  · rename_i hpos
    refine ⟨by dsimp only; omega, ?_, rfl, rfl, rfl, rfl, rfl, rfl, Or.inr rfl⟩
    dsimp only
    rw [goCopy_length _ _ _ hstart]
    exact hbuf

/-- One completed operation of the buffer, as a relation between the state
before and after it (frozen-counterparty semantics; `spins` outcomes never
complete, hence induce no step). -/
inductive Step : LockFreeBuffer → LockFreeBuffer → Prop where
  | readOk (st : LockFreeBuffer) (p q : List Nat) (n : Nat) (st' : LockFreeBuffer)
      (h : st.read p = .ok n q st') : Step st st'
  | readEof (st : LockFreeBuffer) (p : List Nat) (st' : LockFreeBuffer)
      (h : st.read p = .eofR st') : Step st st'
  | writeOk (st : LockFreeBuffer) (p : List Nat) (n : Nat) (st' : LockFreeBuffer)
      (h : st.write p = .ok n st') : Step st st'
  | writeErr (st : LockFreeBuffer) (p : List Nat) (e : Err) (st' : LockFreeBuffer)
      (h : st.write p = .err e st') : Step st st'
  | peekOk (st : LockFreeBuffer) (n : Int) (v : List Nat) (e : Option Err)
      (st' : LockFreeBuffer) (h : st.peek n = .ok v e st') : Step st st'
  | commitAny (st : LockFreeBuffer) (n : Int) : Step st (st.commit n).2
  | readFromIter (st : LockFreeBuffer) (start cnt : Nat) (st1 : LockFreeBuffer)
      (resp : LockFreeBuffer.ReadResp)
      (h : st.waitForWriteSpace defaultReadBlockSize = .ok start cnt st1) :
      Step st (st1.readFromFill start cnt resp).2
  | waitEofStep (st : LockFreeBuffer) (n : Nat) (st' : LockFreeBuffer)
      (h : st.waitForWriteSpace n = .eof st') : Step st st'
  | closeStep (st : LockFreeBuffer) : Step st st.close.2

/-- The states reachable from a freshly constructed buffer by completed
operations. -/
inductive Reachable : LockFreeBuffer → Prop where
  | init (size : Int) (st : LockFreeBuffer) (h : newLockFreeBuffer size = .ok st) :
      Reachable st
  | step (st st' : LockFreeBuffer) (h : Reachable st) (hs : Step st st') :
      Reachable st'

theorem newLockFreeBuffer_inv (size : Int) (st : LockFreeBuffer)
    (h : newLockFreeBuffer size = .ok st) : BufInv st := by
  simp only [newLockFreeBuffer] at h
  split at h
  · simp at h
  · split at h
    · -- size = 0: the default size is substituted
      split at h
      · simp at h
      · split at h
        · simp at h
        · rw [Except.ok.injEq] at h
          subst h
          refine ⟨⟨?_, rfl, by simp⟩, Nat.le_refl 0, Nat.le_refl 0, by simp⟩
          norm_num [defaultBufferSize]
    · split at h
      · simp at h
      · split at h
        · simp at h
        · rename_i hneg hzero hpow hsmall
          rw [Except.ok.injEq] at h
          subst h
          refine ⟨⟨?_, rfl, by simp⟩, Nat.le_refl 0, Nat.le_refl 0, by simp⟩
          show 0 < size.toNat
          simp only [defaultReadBlockSize] at hsmall
          omega

theorem step_inv (st st' : LockFreeBuffer) (hinv : BufInv st) (hs : Step st st') :
    BufInv st' := by
  obtain ⟨⟨hsz, hmask, hbuf⟩, hg, hcp, hpc⟩ := hinv
  replace hg : st.gate ≤ st.cseq := hg
  cases hs with
  | readOk p q n st' h =>
    obtain ⟨h1, h2, h3, h4, h5, h6, h7, h8, h9, h10⟩ := read_ok_inv st p q n st' hbuf h
    exact ⟨⟨by omega, by omega, by rw [h1, h3]; exact hbuf⟩, by
      show st'.gate ≤ st'.cseq; omega, by omega, by omega⟩
  | readEof p st' h =>
    rw [read_eof_inv st p st' h]
    exact ⟨⟨hsz, hmask, hbuf⟩, hg, hcp, hpc⟩
  | writeOk p n st' h =>
    obtain ⟨h1, h2, h3, h4, h5, h6, h7, h8, h9, h10, h11⟩ :=
      write_ok_inv st p n st' ⟨hsz, hmask, hbuf⟩ hg hcp h
    exact ⟨⟨by omega, by omega, by omega⟩, h10, by omega, h11⟩
  | writeErr p e st' h =>
    simp only [LockFreeBuffer.write] at h
    split at h
    · rename_i st1 heq
      rw [LockFreeBuffer.WriteResult.err.injEq] at h
      obtain ⟨-, h2⟩ := h
      subst h2
      rw [wait_eof_inv st p.length st1 heq]
      exact ⟨⟨hsz, hmask, hbuf⟩, hg, hcp, hpc⟩
    · simp at h
    · split at h <;> simp at h
  | peekOk n v e st' h =>
    obtain ⟨h1, h2, h3, h4, h5, h6, h7, h8, h9⟩ := peek_ok_inv st n v e st' h
    exact ⟨⟨by omega, by omega, by rw [h1, h2]; exact hbuf⟩, by
      show st'.gate ≤ st'.cseq; omega, by omega, by omega⟩
  | commitAny n =>
    rcases commit_inv st n with h | ⟨h, hn, hle⟩
    · rw [h]
      exact ⟨⟨hsz, hmask, hbuf⟩, hg, hcp, hpc⟩
    · rw [h]
      refine ⟨⟨hsz, hmask, hbuf⟩, ?_, ?_, ?_⟩
      · show st.gate ≤ st.cseq + n.toNat
        omega
      · show st.cseq + n.toNat ≤ st.pseq
        omega
      · show st.pseq ≤ st.cseq + n.toNat + st.size
        omega
  | readFromIter start cnt st1 resp h =>
    obtain ⟨hstart, hcnt, hb1, ht1, hs1, hm1, hd1, hp1, hc1, hgate⟩ :=
      wait_ok_inv st defaultReadBlockSize start cnt st1 h
    obtain ⟨hwrap, hg1⟩ := hgate hg
    have hbl1 : st1.buf.length = st.buf.length := by rw [hb1]
    obtain ⟨hf1, hf2, hf3, hf4, hf5, hf6, hf7, hf8, hf9⟩ :=
      readFromFill_inv st1 start cnt resp (by omega) (by omega) (by omega)
    refine ⟨⟨by omega, by omega, by omega⟩, ?_, ?_, ?_⟩
    · show (st1.readFromFill start cnt resp).2.gate ≤
        (st1.readFromFill start cnt resp).2.cseq
      omega
    · show (st1.readFromFill start cnt resp).2.cseq ≤
        (st1.readFromFill start cnt resp).2.pseq
      rcases hf9 with h9 | h9 <;> omega
    · show (st1.readFromFill start cnt resp).2.pseq ≤
        (st1.readFromFill start cnt resp).2.cseq +
          (st1.readFromFill start cnt resp).2.size
      rcases hf9 with h9 | h9 <;> omega
  | waitEofStep n st' h =>
    rw [wait_eof_inv st n st' h]
    exact ⟨⟨hsz, hmask, hbuf⟩, hg, hcp, hpc⟩
  | closeStep =>
    exact ⟨⟨hsz, hmask, hbuf⟩, hg, hcp, hpc⟩

theorem reachable_inv (st : LockFreeBuffer) (h : Reachable st) : BufInv st := by
  induction h with
  | init size st h => exact newLockFreeBuffer_inv size st h
  | step st st' h hs ih => exact step_inv st st' ih hs

/-! ## Concrete states used by witnesses -/

/-- A freshly constructed buffer of the minimum legal size 2048. -/
def bufA : LockFreeBuffer :=
  { buf := List.replicate 2048 0, tmp := [], size := 2048, mask := 2047,
    done := false, pseq := 0, gate := 0, cseq := 0, cwait := 0, pwait := 0 }

/-- State `bufA` after the producer has filled all 2048 bytes. -/
def bufB : LockFreeBuffer :=
  { bufA with pseq := 2048 }

/-- State `bufA` after the producer has filled 100 bytes. -/
def bufC : LockFreeBuffer :=
  { bufA with pseq := 100 }

/-! ## Claim theorems -/

/-- C1: for every reachable state of the buffer — hence before and after
every completed operation (Read, Write, Peek, Commit, the ReadFrom
iteration, and the Peek/Commit pairs issued by the streaming adaptors) —
the sequence invariant `0 ≤ pseq − cseq ≤ size` holds: `cseq` never exceeds
`pseq` and the logical length `pseq − cseq` never exceeds the buffer
size. -/
theorem C1_seq_invariant (st : LockFreeBuffer) (h : Reachable st) :
    st.cseq ≤ st.pseq ∧ st.pseq ≤ st.cseq + st.size :=
  ⟨(reachable_inv st h).2.2.1, (reachable_inv st h).2.2.2⟩

theorem C1_seq_invariant_witness :
    bufA.cseq ≤ bufA.pseq ∧ bufA.pseq ≤ bufA.cseq + bufA.size :=
  C1_seq_invariant bufA (Reachable.init 2048 bufA (by rfl))

/-- C2: for every `0 ≤ n ≤ size`, Commit is all-or-nothing and total:
if `n ≤ pseq − cseq` it advances `cseq` by exactly `n` and returns
`(n, ok)`; otherwise it leaves the state unchanged and returns
`(0, insufficient-data)`. -/
theorem C2_commit (st : LockFreeBuffer) (n : Int) (h0 : 0 ≤ n)
    (h1 : n ≤ (st.size : Int)) :
    (n ≤ st.len →
      st.commit n = ((n.toNat, none), { st with cseq := st.cseq + n.toNat })) ∧
    (st.len < n → st.commit n = ((0, some .insufficientData), st)) := by
  constructor
  · intro hle
    have hlen : (st.cseq : Int) + n ≤ (st.pseq : Int) := by
      simp only [LockFreeBuffer.len] at hle
      omega
    unfold LockFreeBuffer.commit
    rw [if_neg (by omega), if_neg (by omega), if_pos hlen]
  · intro hlt
    have hlen : ¬ (st.cseq : Int) + n ≤ (st.pseq : Int) := by
      simp only [LockFreeBuffer.len] at hlt
      omega
    unfold LockFreeBuffer.commit
    rw [if_neg (by omega), if_neg (by omega), if_neg hlen]

theorem C2_commit_witness :
    bufB.commit 256 = ((256, none), { bufB with cseq := bufB.cseq + 256 }) ∧
    bufC.commit 256 = ((0, some .insufficientData), bufC) :=
  ⟨(C2_commit bufB 256 (by decide) (by decide)).1 (by decide),
   (C2_commit bufC 256 (by decide) (by decide)).2 (by decide)⟩

theorem wait_oversize (st : LockFreeBuffer) (n : Nat) (hn : st.size < n)
    (hcp : st.cseq ≤ st.pseq) :
    st.waitForWriteSpace n =
      if st.done then .eof { st with pwait := st.pwait + 1 } else .spins := by
  simp only [LockFreeBuffer.waitForWriteSpace]
  split
  · split
    · rename_i hle
      exfalso
      omega
    · rfl
  · rename_i hcond
    exfalso
    push_neg at hcond
    obtain ⟨hc1, hc2⟩ := hcond
    omega

/-- C3 (amended): `Write` performs no argument validation.  `|p| < 0` cannot
occur (lengths are non-negative), and when `|p| > size` the gating wait
condition `cseq ≥ wrap` can never be satisfied, so `Write` never returns
buffer-full: it spins forever on an open buffer, and on a closed buffer
returns `(0, end-of-stream)` without advancing `pseq` or modifying the
buffer contents. -/
theorem C3_write_oversize (st : LockFreeBuffer) (p : List Nat)
    (hp : st.size < p.length) (hcp : st.cseq ≤ st.pseq) :
    (st.done = false → st.write p = .spins) ∧
    (st.done = true → st.write p = .err .eof { st with pwait := st.pwait + 1 }) := by
  have hw := wait_oversize st p.length hp hcp
  constructor <;> intro hd
  · unfold LockFreeBuffer.write
    rw [hw, hd]
    rfl
  · unfold LockFreeBuffer.write
    rw [hw, hd]
    rfl

/-- Extracts the error of a `Write` return, when `Write` returns at all. -/
def writeErrOf : LockFreeBuffer.WriteResult → Option Err
  | .err e _ => some e
  | .ok _ _ => none
  | .spins => none

/-- C3 counterexample: on a fresh open buffer of size 2048, `Write` of 2049
bytes does not fail with buffer-full — it never returns (the gating spin
cannot be satisfied). -/
theorem C3_counterexample :
    bufA.write (List.replicate 2049 0) = .spins ∧
    writeErrOf (bufA.write (List.replicate 2049 0)) ≠ some Err.bufferFull := by
  have hw := wait_oversize bufA (List.replicate 2049 0).length
    (by rw [List.length_replicate]; decide) (by decide)
  have h : bufA.write (List.replicate 2049 0) = .spins := by
    unfold LockFreeBuffer.write
    rw [hw]
    rfl
  exact ⟨h, by rw [h]; decide⟩

theorem C3_write_oversize_witness :
    bufA.write (List.replicate 2049 1) = .spins ∧
    { bufA with done := true }.write (List.replicate 2049 1) =
      .err .eof { { bufA with done := true } with pwait :=
        { bufA with done := true }.pwait + 1 } :=
  ⟨(C3_write_oversize bufA (List.replicate 2049 1)
      (by rw [List.length_replicate]; decide) (by decide)).1 rfl,
   (C3_write_oversize { bufA with done := true } (List.replicate 2049 1)
      (by rw [List.length_replicate]; decide) (by decide)).2 rfl⟩

/-- C6: in the producer gating step for `n` bytes, with `ppos = pseq`,
`wrap = ppos + n − size` and `gate` the cached consumer position, a wait is
taken iff `wrap > gate` or `gate > ppos`; the wait completes only when
`cseq ≥ wrap`, upon which `gate` is refreshed to the observed `cseq`; and
the step returns the starting sequence `ppos` with the reserved length
`n`. -/
theorem C6_gate (st : LockFreeBuffer) (n : Nat) :
    (¬((st.pseq : Int) + n - st.size > st.gate ∨ (st.gate : Int) > st.pseq) →
      st.waitForWriteSpace n = .ok st.pseq n st) ∧
    (((st.pseq : Int) + n - st.size > st.gate ∨ (st.gate : Int) > st.pseq) →
      (((st.pseq : Int) + n - st.size ≤ st.cseq →
        st.waitForWriteSpace n =
          .ok st.pseq n { st with pwait := st.pwait + 1, gate := st.cseq }) ∧
        ((st.cseq : Int) < (st.pseq : Int) + n - st.size →
          st.waitForWriteSpace n =
            if st.done then .eof { st with pwait := st.pwait + 1 } else .spins))) := by
  refine ⟨?_, fun hcond => ⟨?_, ?_⟩⟩
  · intro hcond
    simp only [LockFreeBuffer.waitForWriteSpace]
    rw [if_neg hcond]
  · intro hle
    simp only [LockFreeBuffer.waitForWriteSpace]
    rw [if_pos hcond]
    split
    · rfl
    · rename_i hc
      exfalso
      omega
  · intro hlt
    simp only [LockFreeBuffer.waitForWriteSpace]
    rw [if_pos hcond]
    split
    · rename_i hc
      exfalso
      omega
    · rfl

theorem C6_gate_witness :
    (bufA.waitForWriteSpace 1024 = .ok bufA.pseq 1024 bufA) ∧
    (bufB.waitForWriteSpace 1024 =
      if bufB.done then .eof { bufB with pwait := bufB.pwait + 1 } else .spins) :=
  ⟨(C6_gate bufA 1024).1 (by decide),
   ((C6_gate bufB 1024).2 (by decide)).2 (by decide)⟩

/-- Transports a `Read` result to the corresponding result on the closed
buffer (the final state acquires `done = 1`, nothing else changes). -/
def readResultClose : LockFreeBuffer.ReadResult → LockFreeBuffer.ReadResult
  | .ok n q st => .ok n q st.close.2
  | .eofR st => .eofR st.close.2
  | .spins => .spins

/-- Transports a `Peek` result to the corresponding result on the closed
buffer. -/
def peekResultClose : LockFreeBuffer.PeekResult → LockFreeBuffer.PeekResult
  | .ok v e st => .ok v e st.close.2
  | .errP e => .errP e
  | .spins => .spins

/-- C10: `Close` returns a nil error and modifies only the `done` flag:
`pseq`, `cseq`, the buffer contents, `tmp`, and `Len()` are unchanged, and
on a non-empty buffer `Read`, `Peek` and `Commit` behave on the closed
buffer exactly as on the open one (the data already in the ring stays
available). -/
theorem C10_close (st : LockFreeBuffer) (p : List Nat) (n : Int) :
    st.close.1 = none ∧
    st.close.2.pseq = st.pseq ∧ st.close.2.cseq = st.cseq ∧
    st.close.2.buf = st.buf ∧ st.close.2.tmp = st.tmp ∧
    st.close.2.len = st.len ∧
    (st.cseq < st.pseq →
      st.close.2.read p = readResultClose (st.read p)) ∧
    (st.cseq < st.pseq →
      st.close.2.peek n = peekResultClose (st.peek n)) ∧
    st.close.2.commit n = ((st.commit n).1, (st.commit n).2.close.2) := by
  refine ⟨rfl, rfl, rfl, rfl, rfl, rfl, ?_, ?_, ?_⟩
  · intro hne
    simp only [LockFreeBuffer.read, LockFreeBuffer.close]
    repeat' split
    all_goals first
      | rfl
      | (exfalso; omega)
  · intro hne
    simp only [LockFreeBuffer.peek, LockFreeBuffer.close]
    repeat' split
    all_goals first
      | rfl
      | (exfalso; omega)
  · simp only [LockFreeBuffer.commit, LockFreeBuffer.close]
    repeat' split
    all_goals first
      | rfl
      | (exfalso; omega)

theorem C10_close_witness :
    bufB.close.1 = none ∧ bufB.close.2.len = bufB.len ∧
    bufB.close.2.read (List.replicate 4 9) =
      readResultClose (bufB.read (List.replicate 4 9)) ∧
    bufB.close.2.peek 100 = peekResultClose (bufB.peek 100) ∧
    bufB.close.2.commit 256 = ((bufB.commit 256).1, (bufB.commit 256).2.close.2) :=
  ⟨(C10_close bufB [] 0).1, (C10_close bufB [] 0).2.2.2.2.2.1,
   (C10_close bufB (List.replicate 4 9) 100).2.2.2.2.2.2.1 (by decide),
   (C10_close bufB (List.replicate 4 9) 100).2.2.2.2.2.2.2.1 (by decide),
   (C10_close bufB [] 256).2.2.2.2.2.2.2.2⟩

theorem goCopy_zero (dst src : List Nat) :
    goCopy dst src 0 =
      (src.take (min dst.length src.length) ++ dst.drop (min dst.length src.length),
        min dst.length src.length) := by
  simp [goCopy]

/-- The byte count a single `Read` call delivers, in the terms of the spec:
bounded by the request `pl`, the available bytes `pseq − cseq`, and the
distance from `cseq mod size` to the physical end of the backing array. -/
def readCount (st : LockFreeBuffer) (pl : Nat) : Nat :=
  min pl (min (st.pseq - st.cseq) (st.size - st.cseq % st.size))

/-- C4: on a non-empty buffer and a non-empty destination `p`, `Read`
performs one contiguous copy: it returns `n = readCount` bytes taken from
the backing array starting at index `cseq mod size` (the first `n` bytes of
`p` are replaced, the rest kept), advances `cseq` by exactly `n`, and
`0 < n ≤ |p|` — `n` falls short of `|p|` exactly when fewer bytes are
available or the copy reaches the physical end of the array. -/
theorem C4_read (st : LockFreeBuffer) (p : List Nat) (k : Nat)
    (hk : st.size = 2 ^ k) (hmask : st.mask = st.size - 1)
    (hbuf : st.buf.length = st.size)
    (hne : st.cseq < st.pseq) (hp : 0 < p.length) :
    st.read p =
      .ok (readCount st p.length)
        ((st.buf.drop (st.cseq % st.size)).take (readCount st p.length) ++
          p.drop (readCount st p.length))
        { st with cseq := st.cseq + readCount st p.length } ∧
    0 < readCount st p.length ∧ readCount st p.length ≤ p.length := by
  have hszpos : 0 < st.size := by rw [hk]; exact Nat.two_pow_pos k
  have hand : st.cseq &&& st.mask = st.cseq % st.size := by
    rw [hmask, hk]
    exact Nat.and_pow_two_sub_one_eq_mod st.cseq k
  have hcid : st.cseq % st.size < st.size := Nat.mod_lt _ hszpos
  have hrc : 0 < readCount st p.length ∧ readCount st p.length ≤ p.length := by
    unfold readCount
    omega
  refine ⟨?_, hrc⟩
  simp only [LockFreeBuffer.read, hand]
  by_cases h1 : st.cseq + p.length < st.pseq
  · rw [if_pos h1, goCopy_zero]
    have hl : min p.length (st.buf.drop (st.cseq % st.size)).length =
        readCount st p.length := by
      simp only [List.length_drop, hbuf, readCount]
      omega
    rw [hl]
  · rw [if_neg h1, if_pos hne]
    by_cases h2 : st.cseq % st.size + (st.pseq - st.cseq) < st.size
    · rw [if_pos h2, goCopy_zero]
      have hl : min p.length ((st.buf.drop (st.cseq % st.size)).take
          (st.pseq - st.cseq)).length = readCount st p.length := by
        simp only [List.length_take, List.length_drop, hbuf, readCount]
        try omega
      rw [hl, List.take_take, Nat.min_eq_left (by unfold readCount; omega)]
    · rw [if_neg h2, goCopy_zero]
      have hl : min p.length (st.buf.drop (st.cseq % st.size)).length =
          readCount st p.length := by
        simp only [List.length_drop, hbuf, readCount]
        omega
      rw [hl]

theorem C4_read_witness :
    bufB.read (List.replicate 4 9) =
      .ok (readCount bufB (List.replicate 4 9).length)
        ((bufB.buf.drop (bufB.cseq % bufB.size)).take
            (readCount bufB (List.replicate 4 9).length) ++
          (List.replicate 4 9).drop (readCount bufB (List.replicate 4 9).length))
        { bufB with cseq := bufB.cseq + readCount bufB (List.replicate 4 9).length } ∧
    0 < readCount bufB (List.replicate 4 9).length ∧
    readCount bufB (List.replicate 4 9).length ≤ (List.replicate 4 9).length :=
  C4_read bufB (List.replicate 4 9) 11 (by decide) (by decide)
    (by rw [show bufB.buf = List.replicate 2048 0 from rfl, List.length_replicate]; rfl)
    (by decide) (by decide)

/-- The view `Peek` returns, in the terms of the spec: `m` bytes of ring content
starting at index `cseq mod size`, wrapping past the physical end of the
backing array. -/
def peekView (st : LockFreeBuffer) (m : Nat) : List Nat :=
  (st.buf.drop (st.cseq % st.size) ++ st.buf.take (st.cseq % st.size)).take m

/-- C5: for `0 ≤ n ≤ size` on a buffer with at least one byte available,
`Peek(n)` returns exactly `min n (pseq − cseq)` bytes equal to the buffer
contents starting at `cseq mod size` (materialised in the scratch `tmp`
exactly when the region wraps), leaves `cseq` — indeed everything except
`tmp` — unchanged, and pairs the view with insufficient-data iff fewer than
`n` bytes are available. -/
theorem C5_peek (st : LockFreeBuffer) (n : Int) (k : Nat)
    (hk : st.size = 2 ^ k) (hmask : st.mask = st.size - 1)
    (hbuf : st.buf.length = st.size)
    (h0 : 0 ≤ n) (h1 : n ≤ (st.size : Int))
    (hne : st.cseq < st.pseq) (hlen : st.pseq ≤ st.cseq + st.size) :
    st.peek n =
      .ok (peekView st (min n.toNat (st.pseq - st.cseq)))
        (if st.len < n then some .insufficientData else none)
        (if st.size < st.cseq % st.size + min n.toNat (st.pseq - st.cseq) then
          { st with tmp := peekView st (min n.toNat (st.pseq - st.cseq)) }
        else st) ∧
    (peekView st (min n.toNat (st.pseq - st.cseq))).length =
      min n.toNat (st.pseq - st.cseq) := by
  have hszpos : 0 < st.size := by rw [hk]; exact Nat.two_pow_pos k
  have hand : st.cseq &&& st.mask = st.cseq % st.size := by
    rw [hmask, hk]
    exact Nat.and_pow_two_sub_one_eq_mod st.cseq k
  have hcid : st.cseq % st.size < st.size := Nat.mod_lt _ hszpos
  set mN := min n.toNat (st.pseq - st.cseq) with hmN
  have hmsz : mN ≤ st.size := by omega
  have hdropLen : (st.buf.drop (st.cseq % st.size)).length = st.size - st.cseq % st.size := by
    simp only [List.length_drop, hbuf]
  have hview : st.size < st.cseq % st.size + mN →
      st.buf.drop (st.cseq % st.size) ++
        st.buf.take (mN - (st.size - st.cseq % st.size)) =
        peekView st mN := by
    intro h2
    rw [peekView, List.take_append_eq_append_take, hdropLen,
      show (st.buf.drop (st.cseq % st.size)).take mN =
          st.buf.drop (st.cseq % st.size) from
        List.take_of_length_le (by rw [hdropLen]; omega),
      List.take_take, Nat.min_eq_left (by omega)]
  have hview2 : ¬ st.size < st.cseq % st.size + mN →
      (st.buf.drop (st.cseq % st.size)).take mN = peekView st mN := by
    intro h2
    rw [peekView, List.take_append_of_le_length (by omega)]
  constructor
  · simp only [LockFreeBuffer.peek, hand]
    rw [if_neg (by omega), if_neg (by omega), if_neg (by omega)]
    by_cases hc : n ≤ (st.pseq : Int) - (st.cseq : Int)
    · rw [if_pos hc, if_pos hc, if_pos (by omega)]
      have htn : n.toNat = mN := by omega
      rw [htn,
        show (if st.len < n then some Err.insufficientData else none) = none from
          if_neg (by simp only [LockFreeBuffer.len]; omega)]
      by_cases h2 : st.size < st.cseq % st.size + mN
      · rw [if_pos h2, if_pos h2, hdropLen, hview h2]
      · rw [if_neg h2, if_neg h2, hview2 h2]
    · rw [if_neg hc, if_neg hc, if_pos (by omega)]
      have htn : ((st.pseq : Int) - (st.cseq : Int)).toNat = mN := by omega
      rw [htn,
        show (if st.len < n then some Err.insufficientData else none) =
            some Err.insufficientData from
          if_pos (by simp only [LockFreeBuffer.len]; omega)]
      by_cases h2 : st.size < st.cseq % st.size + mN
      · rw [if_pos h2, if_pos h2, hdropLen, hview h2]
      · rw [if_neg h2, if_neg h2, hview2 h2]
  · simp only [peekView, List.length_take, List.length_append, List.length_drop,
      List.length_take, hbuf]
    omega

theorem readFromFill_char (st : LockFreeBuffer) (start cnt : Nat)
    (resp : LockFreeBuffer.ReadResp) :
    (st.readFromFill start cnt resp).1 =
      min resp.data.length
        (min ((start &&& st.mask) + cnt) st.buf.length - (start &&& st.mask)) ∧
    (0 < (st.readFromFill start cnt resp).1 →
      (st.readFromFill start cnt resp).2.pseq =
        start + (st.readFromFill start cnt resp).1) ∧
    (st.readFromFill start cnt resp).2.cseq = st.cseq ∧
    (st.readFromFill start cnt resp).2.gate = st.gate ∧
    (st.readFromFill start cnt resp).2.size = st.size ∧
    (st.readFromFill start cnt resp).2.done = st.done ∧
    (st.readFromFill start cnt resp).2.pwait = st.pwait := by
  simp only [LockFreeBuffer.readFromFill]
  split
  · exact ⟨rfl, fun _ => rfl, rfl, rfl, rfl, rfl, rfl⟩
  · rename_i h
    exact ⟨rfl, fun hpos => absurd hpos h, rfl, rfl, rfl, rfl, rfl⟩

theorem readFromLoop_eof (st : LockFreeBuffer)
    (resps : List LockFreeBuffer.ReadResp) (total : Int) (st1 : LockFreeBuffer)
    (h : st.waitForWriteSpace defaultReadBlockSize = .eof st1) :
    LockFreeBuffer.readFromLoop resps st total = .ret 0 .eof st1 := by
  rw [LockFreeBuffer.readFromLoop, h]

theorem readFromLoop_next (st : LockFreeBuffer)
    (resps : List LockFreeBuffer.ReadResp) (total : Int) (start cnt : Nat)
    (st1 : LockFreeBuffer) (resp : LockFreeBuffer.ReadResp)
    (rest : List LockFreeBuffer.ReadResp)
    (hw : st.waitForWriteSpace defaultReadBlockSize = .ok start cnt st1)
    (hr : resps = resp :: rest) (he : resp.err = none) :
    LockFreeBuffer.readFromLoop resps st total =
      LockFreeBuffer.readFromLoop rest (st1.readFromFill start cnt resp).2
        (total + ((st1.readFromFill start cnt resp).1 : Int)) := by
  subst hr
  rw [LockFreeBuffer.readFromLoop, hw]
  change (match resp.err with
    | some e => LockFreeBuffer.RFResult.ret
        (total + ((st1.readFromFill start cnt resp).1 : Int)) e
        (st1.readFromFill start cnt resp).2
    | none => LockFreeBuffer.readFromLoop rest (st1.readFromFill start cnt resp).2
        (total + ((st1.readFromFill start cnt resp).1 : Int))) = _
  rw [he]

theorem readFromLoop_err (st : LockFreeBuffer)
    (resps : List LockFreeBuffer.ReadResp) (total : Int) (start cnt : Nat)
    (st1 : LockFreeBuffer) (resp : LockFreeBuffer.ReadResp)
    (rest : List LockFreeBuffer.ReadResp) (e : Err)
    (hw : st.waitForWriteSpace defaultReadBlockSize = .ok start cnt st1)
    (hr : resps = resp :: rest) (he : resp.err = some e) :
    LockFreeBuffer.readFromLoop resps st total =
      .ret (total + ((st1.readFromFill start cnt resp).1 : Int)) e
        (st1.readFromFill start cnt resp).2 := by
  subst hr
  rw [LockFreeBuffer.readFromLoop, hw]
  change (match resp.err with
    | some e2 => LockFreeBuffer.RFResult.ret
        (total + ((st1.readFromFill start cnt resp).1 : Int)) e2
        (st1.readFromFill start cnt resp).2
    | none => LockFreeBuffer.readFromLoop rest (st1.readFromFill start cnt resp).2
        (total + ((st1.readFromFill start cnt resp).1 : Int))) = _
  rw [he]

/-- C7 (amended): when the `ReadFrom` loop terminates because the reader
returned an error, it returns that error together with the accumulated byte
count; but when it terminates because `waitForWriteSpace` observed close
(end-of-stream while blocked for write space), it returns `(0, end-of-stream)`,
discarding the count of bytes already forwarded. -/
theorem C7_readFrom (st : LockFreeBuffer)
    (resps : List LockFreeBuffer.ReadResp) (total : Int) :
    (∀ st1, st.waitForWriteSpace defaultReadBlockSize = .eof st1 →
      LockFreeBuffer.readFromLoop resps st total = .ret 0 .eof st1) ∧
    (∀ start cnt st1 resp rest e,
      st.waitForWriteSpace defaultReadBlockSize = .ok start cnt st1 →
      resps = resp :: rest → resp.err = some e →
      LockFreeBuffer.readFromLoop resps st total =
        .ret (total + ((st1.readFromFill start cnt resp).1 : Int)) e
          (st1.readFromFill start cnt resp).2) :=
  ⟨fun st1 h => readFromLoop_eof st resps total st1 h,
   fun start cnt st1 resp rest e hw hr he =>
     readFromLoop_err st resps total start cnt st1 resp rest e hw hr he⟩

/-- A buffer mid-stream: 2048 bytes produced, 1024 consumed, the producer
gate still stale at 0, and the buffer already closed. -/
def bufE : LockFreeBuffer :=
  { buf := List.replicate 2048 0, tmp := [], size := 2048, mask := 2047,
    done := true, pseq := 2048, gate := 0, cseq := 1024, cwait := 0, pwait := 0 }

/-- State `bufE` after the first gating step refreshed the gate. -/
def bufE1 : LockFreeBuffer := { bufE with pwait := 1, gate := 1024 }

/-- A reader that delivers two bytes and keeps going. -/
def rdrE : List LockFreeBuffer.ReadResp := [⟨[7, 7], none⟩]

/-- The observable part of a `ReadFrom` return: the returned count and
error, plus the final producer sequence (how many bytes entered the ring). -/
def rfView : LockFreeBuffer.RFResult → Option (Int × Err × Nat)
  | .ret n e st => some (n, e, st.pseq)
  | .spins => none
  | .outOfReader => none

/-- C7 counterexample: starting `ReadFrom` on `bufE` with reader `rdrE`,
two bytes are pulled into the ring (`pseq` ends at 2050, up from 2048), and
then the gating wait observes the closed flag — yet the call returns
`(0, end-of-stream)`, not the byte count it forwarded. -/
theorem C7_counterexample :
    rfView (bufE.readFrom rdrE) = some (0, Err.eof, 2050) ∧ bufE.pseq = 2048 := by
  have hw1 : bufE.waitForWriteSpace defaultReadBlockSize =
      .ok 2048 defaultReadBlockSize bufE1 := by rfl
  have hstep := readFromLoop_next bufE rdrE 0 2048 defaultReadBlockSize bufE1
    ⟨[7, 7], none⟩ [] hw1 rfl rfl
  obtain ⟨hn1, hp1, hc1, hg1, hs1, hd1, hq1⟩ :=
    readFromFill_char bufE1 2048 defaultReadBlockSize ⟨[7, 7], none⟩
  have hblen : bufE1.buf.length = 2048 := by
    rw [show bufE1.buf = List.replicate 2048 0 from rfl, List.length_replicate]
  rw [show (2048 : Nat) &&& bufE1.mask = 0 from rfl, hblen] at hn1
  have hn2 : (bufE1.readFromFill 2048 defaultReadBlockSize ⟨[7, 7], none⟩).1 = 2 := by
    rw [hn1]
    decide
  have hp : (bufE1.readFromFill 2048 defaultReadBlockSize ⟨[7, 7], none⟩).2.pseq =
      2050 := by
    rw [hp1 (by omega), hn2]
  have hcond1 : ((bufE1.readFromFill 2048 defaultReadBlockSize
      ⟨[7, 7], none⟩).2.pseq : Int) + (defaultReadBlockSize : Int) -
      ((bufE1.readFromFill 2048 defaultReadBlockSize ⟨[7, 7], none⟩).2.size : Int) >
      ((bufE1.readFromFill 2048 defaultReadBlockSize ⟨[7, 7], none⟩).2.gate : Int) := by
    rw [hp, hs1, hg1]
    norm_num [defaultReadBlockSize, show bufE1.size = 2048 from rfl,
      show bufE1.gate = 1024 from rfl]
  have hcond2 : ((bufE1.readFromFill 2048 defaultReadBlockSize
      ⟨[7, 7], none⟩).2.cseq : Int) <
      ((bufE1.readFromFill 2048 defaultReadBlockSize ⟨[7, 7], none⟩).2.pseq : Int) +
        (defaultReadBlockSize : Int) -
        ((bufE1.readFromFill 2048 defaultReadBlockSize ⟨[7, 7], none⟩).2.size : Int) := by
    rw [hp, hs1, hc1]
    norm_num [defaultReadBlockSize, show bufE1.size = 2048 from rfl,
      show bufE1.cseq = 1024 from rfl]
  have hw2 := ((C6_gate (bufE1.readFromFill 2048 defaultReadBlockSize
      ⟨[7, 7], none⟩).2 defaultReadBlockSize).2 (Or.inl hcond1)).2 hcond2
  rw [if_pos (show (bufE1.readFromFill 2048 defaultReadBlockSize
      ⟨[7, 7], none⟩).2.done = true from by
        rw [hd1]; rfl)] at hw2
  have hfin := readFromLoop_eof
    (bufE1.readFromFill 2048 defaultReadBlockSize ⟨[7, 7], none⟩).2 []
    (0 + ((bufE1.readFromFill 2048 defaultReadBlockSize ⟨[7, 7], none⟩).1 : Int))
    _ hw2
  refine ⟨?_, rfl⟩
  show rfView (LockFreeBuffer.readFromLoop rdrE bufE 0) = _
  rw [hstep, hfin]
  simp only [rfView, hp]

theorem C7_readFrom_witness :
    LockFreeBuffer.readFromLoop [] { bufE with pseq := 2050, gate := 1024 } 7 =
      .ret 0 .eof { { bufE with pseq := 2050, gate := 1024 } with
        pwait := { bufE with pseq := 2050, gate := 1024 }.pwait + 1 } ∧
    LockFreeBuffer.readFromLoop [⟨[], some .eof⟩] bufA 5 =
      .ret (5 + ((bufA.readFromFill 0 defaultReadBlockSize ⟨[], some .eof⟩).1 : Int))
        .eof (bufA.readFromFill 0 defaultReadBlockSize ⟨[], some .eof⟩).2 :=
  ⟨(C7_readFrom { bufE with pseq := 2050, gate := 1024 } [] 7).1 _ (by rfl),
   (C7_readFrom bufA [⟨[], some .eof⟩] 5).2 0 defaultReadBlockSize bufA
     ⟨[], some .eof⟩ [] .eof (by rfl) rfl rfl⟩

/-- A buffer whose readable region wraps: 2100 bytes produced, 2000
consumed. -/
def bufD : LockFreeBuffer :=
  { bufA with pseq := 2100, cseq := 2000 }

theorem C5_peek_witness :
    bufD.peek 150 =
      .ok (peekView bufD (min (150 : Int).toNat (bufD.pseq - bufD.cseq)))
        (if bufD.len < 150 then some .insufficientData else none)
        (if bufD.size < bufD.cseq % bufD.size +
            min (150 : Int).toNat (bufD.pseq - bufD.cseq) then
          { bufD with tmp := peekView bufD (min (150 : Int).toNat (bufD.pseq - bufD.cseq)) }
        else bufD) ∧
    (peekView bufD (min (150 : Int).toNat (bufD.pseq - bufD.cseq))).length =
      min (150 : Int).toNat (bufD.pseq - bufD.cseq) :=
  C5_peek bufD 150 11 (by decide) (by decide)
    (by rw [show bufD.buf = List.replicate 2048 0 from rfl, List.length_replicate]; rfl)
    (by decide) (by decide) (by decide) (by decide)

/-- C8: the constructor rejects a negative size with negative-count,
substitutes `defaultBufferSize` for size 0, rejects a non-power-of-two with
an error suggesting the next power of two, rejects a power of two below
`2 × defaultReadBlock`, and on every remaining size succeeds with a byte
array of exactly that length and `mask = size − 1`. -/
theorem C8_newLockFreeBuffer (size : Int) :
    (size < 0 → newLockFreeBuffer size = .error .negativeCount) ∧
    (size = 0 → newLockFreeBuffer size = newLockFreeBuffer (defaultBufferSize : Int)) ∧
    (0 < size → powerOfTwo64 size = false →
      newLockFreeBuffer size = .error (.notPowerOfTwo (roundUpPowerOfTwo64 size))) ∧
    (0 < size → powerOfTwo64 size = true → size < 2 * (defaultReadBlockSize : Int) →
      newLockFreeBuffer size = .error (.tooSmall (2 * (defaultReadBlockSize : Int)))) ∧
    (0 < size → powerOfTwo64 size = true → 2 * (defaultReadBlockSize : Int) ≤ size →
      ∃ st, newLockFreeBuffer size = .ok st ∧ st.buf.length = size.toNat ∧
        st.mask = size.toNat - 1 ∧ st.size = size.toNat) := by
  refine ⟨?_, ?_, ?_, ?_, ?_⟩
  · intro h
    unfold newLockFreeBuffer
    rw [if_pos h]
  · intro h
    subst h
    rfl
  · intro hpos hpow
    simp only [newLockFreeBuffer]
    rw [if_neg (by omega), if_neg (by omega : ¬ size = 0),
      if_pos (by simp [hpow])]
  · intro hpos hpow hsmall
    simp only [newLockFreeBuffer]
    rw [if_neg (by omega), if_neg (by omega : ¬ size = 0),
      if_neg (by simp [hpow]), if_pos hsmall]
  · intro hpos hpow hbig
    simp only [newLockFreeBuffer]
    rw [if_neg (by omega), if_neg (by omega : ¬ size = 0),
      if_neg (by simp [hpow]), if_neg (by omega)]
    exact ⟨_, rfl, by simp, rfl, rfl⟩

/-- Whether a constructor call succeeded. -/
def ctorOk : Except Err LockFreeBuffer → Bool
  | .ok _ => true
  | .error _ => false

theorem C8_newLockFreeBuffer_witness :
    newLockFreeBuffer (-5) = .error .negativeCount ∧
    newLockFreeBuffer 0 = newLockFreeBuffer (defaultBufferSize : Int) ∧
    newLockFreeBuffer 24 = .error (.notPowerOfTwo (roundUpPowerOfTwo64 24)) ∧
    newLockFreeBuffer 1024 = .error (.tooSmall (2 * (defaultReadBlockSize : Int))) ∧
    ctorOk (newLockFreeBuffer 4096) = true := by
  refine ⟨(C8_newLockFreeBuffer (-5)).1 (by decide),
    (C8_newLockFreeBuffer 0).2.1 rfl,
    (C8_newLockFreeBuffer 24).2.2.1 (by decide) (by decide),
    (C8_newLockFreeBuffer 1024).2.2.2.1 (by decide) (by decide) (by decide), ?_⟩
  obtain ⟨st, hok, -, -, -⟩ :=
    (C8_newLockFreeBuffer 4096).2.2.2.2 (by decide) (by decide) (by decide)
  rw [hok]
  rfl

/-- C9: for `|src| ≤ |dst|` and `start ≤ |dst|`, `ringCopy` terminates
(the fuelled loop returns a value), writes `src` into `dst` beginning at
`start` and wrapping to `dst[0]` when the tail is exhausted — byte `k` of
`src` lands at index `(start + k) mod |dst|` — preserves the destination
length, and returns exactly `|src|`. -/
theorem C9_ringCopy (dst src : List Nat) (start : Nat)
    (h1 : src.length ≤ dst.length) (h2 : start ≤ dst.length) :
    ∃ out, ringCopy dst src start = some (out, src.length) ∧
      out.length = dst.length ∧
      ∀ k, k < src.length → out[(start + k) % dst.length]? = src[k]? :=
  ringCopy_char dst src start h1 h2

theorem C9_ringCopy_witness :
    ringCopy (List.replicate 8 0) [1, 2, 3, 4, 5] 6 =
      some ([3, 4, 5, 0, 0, 0, 1, 2], 5) := by
  obtain ⟨out, hout, hlen, hget⟩ :=
    C9_ringCopy (List.replicate 8 0) [1, 2, 3, 4, 5] 6 (by decide) (by decide)
  have hval : ringCopy (List.replicate 8 0) [1, 2, 3, 4, 5] 6 =
      some ([3, 4, 5, 0, 0, 0, 1, 2], 5) := by decide
  have hsame : some (out, [1, 2, 3, 4, 5].length) =
      some (([3, 4, 5, 0, 0, 0, 1, 2] : List Nat), 5) := hout.symm.trans hval
  exact hout.trans hsame
